import Mathlib

/-
Verification development for the noise-generation core of the
`tree-experiments` repository (`src/trees/tree_things/perlin.py`).

Modelling conventions:
* numpy floating point values are idealized as exact rationals (`ℚ`);
  the only irrational quantity in the source, `np.linalg.norm` inside
  `PerlinNoiseScreen.stencil`, is modelled over `ℝ` with `Real.sqrt`.
* n-dimensional numpy arrays are modelled as total functions
  `List ℕ → ℚ` (spatial index) together with an explicit shape list;
  arrays of n-vectors carry an extra component argument `ℕ → ℚ` or are
  `List ℚ` valued.
* the shared `numpy.random.Generator` is modelled as an abstract
  deterministic stream `draw : ℕ → ℕ → ℚ` mapping `(seed, position)` to
  the value of the `position`-th standard normal variate of the stream
  seeded with `seed`, together with an explicit counter that is advanced
  by every draw.  `generator.normal(loc=0, scale=v, size=n)` thus
  returns `v * draw seed (count + i)` for `i < n` and advances the
  counter by `n`.  This captures exactly the determinism property of
  `numpy.random.default_rng`: the stream is a pure function of the seed
  and the draw position.
* `@cached_property` / `@cache` laziness is modelled twice: once as the
  pure mathematical value (a function of the parameters alone), and once
  as explicit state passing over a cache/state structure, used for the
  memoization claims.
-/

namespace Perlin

/-- Row-major enumeration of all index tuples of an n-dimensional shape,
modelling `numpy.ndindex` / `itertools.product(*(range(d) for d in shape))`. -/
def ndindexList : List ℕ → List (List ℕ)
  | [] => [[]]
  | d :: ds => (List.range d).flatMap (fun i => (ndindexList ds).map (i :: ·))

/-- Row-major rank of an index tuple inside a shape: the position at which
`itertools.product` (as used in `NoiseOctave.gradient_grid`) visits it. -/
def rowMajorRank : List ℕ → List ℕ → ℕ
  | _ :: ds, i :: is => i * (ds.prod) + rowMajorRank ds is
  | _, _ => 0

/-- Sum of squared components of the first `dims` entries of a vector,
modelling `np.sum(vec ** 2)` in `NoiseOctave.gen_vector`. -/
def listSumSq (dims : ℕ) (v : ℕ → ℚ) : ℚ :=
  ((List.range dims).map (fun i => v i ^ 2)).sum

/-- The vector of `dims` draws returned by
`generator.normal(loc=0.0, scale=variance, size=dims)` when the shared
generator (stream of `draw`) is at counter `cnt`:  numpy's `normal` returns
`loc + scale * z` for a standard normal variate `z` taken from the stream. -/
def normalDraws (draw : ℕ → ℕ → ℚ) (seed cnt : ℕ) (variance : ℚ) : ℕ → ℚ :=
  fun i => variance * draw seed (cnt + i)

/-- Component `c` of the vector produced by `NoiseOctave.gen_vector` when the
shared generator is at counter `cnt`:
`(magnitude / np.sum(vec ** 2)) * vec` for `vec` the `dims` normal draws. -/
def genVecComp (draw : ℕ → ℕ → ℚ) (seed cnt : ℕ) (magnitude variance : ℚ)
    (dims : ℕ) (c : ℕ) : ℚ :=
  (magnitude / listSumSq dims (normalDraws draw seed cnt variance)) *
    normalDraws draw seed cnt variance c

/-- The noise screen parameters: `PerlinNoiseScreen`'s constructor fields
(`shape`, `seed`, `octaves`, `density`, `variance_func`, `magnitude_func`). -/
structure Screen where
  shape : List ℕ
  seed : ℕ
  octaves : ℕ
  density : ℕ
  varianceFunc : ℕ → ℚ
  magnitudeFunc : ℕ → ℚ

/-- `PerlinNoiseScreen.dimensions = len(self.shape)`. -/
def Screen.dims (s : Screen) : ℕ := s.shape.length

/-- `NoiseOctave.shape`: `top_shape` scaled per axis by
`density_scale_factor = density ** octave`. -/
def octShape (s : Screen) (o : ℕ) : List ℕ :=
  s.shape.map (fun d => d * s.density ^ o)

/-- Number of grid nodes of octave `o` (`prod` of its shape). -/
def octNodeCount (s : Screen) (o : ℕ) : ℕ := (octShape s o).prod

/-- Position of the shared generator's counter when octave `o`'s
`gradient_grid` starts generating: grids are generated lazily in octave
order `0, 1, …` (triggered in that order by `PerlinNoiseScreen.gradient`),
each node consuming `dimensions` draws. -/
def octStart (s : Screen) (o : ℕ) : ℕ :=
  s.dims * ((List.range o).map (octNodeCount s)).sum

/-- `NoiseOctave.gradient_grid` of octave `o` as a pure function of the
parameters: the node at index tuple `idx` (visited in row-major order by
`itertools.product`) receives the `gen_vector` drawn at counter
`octStart + dims * rowMajorRank idx`. -/
def octGrid (draw : ℕ → ℕ → ℚ) (s : Screen) (o : ℕ) : List ℕ → ℕ → ℚ :=
  fun idx c =>
    genVecComp draw s.seed (octStart s o + s.dims * rowMajorRank (octShape s o) idx)
      (s.magnitudeFunc o) (s.varianceFunc o) s.dims c

/-- The grid coordinate `np.linspace(0, 1, num=d)[j] = j / (d - 1)` of node
`j` along an axis of `d` nodes (`0` when `d = 1`, matching
`np.linspace(0, 1, num=1) = [0.0]`). -/
def nodeCoord (d j : ℕ) : ℚ := (j : ℚ) / ((d - 1 : ℕ) : ℚ)

/-- The native coordinate point (in `[0,1]^n`) of the grid node `idx` of a
grid of shape `dims`, modelling one entry of `NoiseOctave.points`. -/
def nodePoint (dims idx : List ℕ) : List ℚ :=
  (dims.zip idx).map (fun p => nodeCoord p.1 p.2)

/-- Index of the interpolation cell containing coordinate `x ∈ [0,1]` on the
axis `np.linspace(0, 1, num=d)`: `scipy.interpolate.RegularGridInterpolator`
locates the enclosing cell and clips it to `[0, d-2]` so that `x = 1` uses
the last cell. -/
def cellIndex (d : ℕ) (x : ℚ) : ℕ :=
  min (⌊x * ((d - 1 : ℕ) : ℚ)⌋).toNat (d - 2)

/-- Barycentric offset of `x` inside its interpolation cell. -/
def cellFrac (d : ℕ) (x : ℚ) : ℚ :=
  x * ((d - 1 : ℕ) : ℚ) - (cellIndex d x : ℚ)

/-- n-dimensional multilinear interpolation of scalar data on the grid
`[np.linspace(0, 1, num=d) for d in dims]`, as performed (per vector
component) by `RegularGridInterpolator(..., method="linear")`: recursively
along each axis, blend the two sub-interpolations at the cell's lower and
upper face with weights `1 - t` and `t`. -/
def multilinear : List ℕ → List ℚ → (List ℕ → ℚ) → ℚ
  | [], _, data => data []
  | _ :: _, [], _ => 0
  | d :: ds, x :: xs, data =>
      (1 - cellFrac d x) *
          multilinear ds xs (fun r => data (cellIndex d x :: r)) +
        cellFrac d x *
          multilinear ds xs (fun r => data ((cellIndex d x + 1) :: r))

/-- Bounds check of `RegularGridInterpolator(..., bounds_error=True)` over
the grid `[np.linspace(0, 1, num=d) for d in shape]`: every query coordinate
must lie in `[0, 1]`. -/
def inBounds (pt : List ℚ) : Bool :=
  pt.all (fun x => decide (0 ≤ x) && decide (x ≤ 1))

/-- `NoiseOctave.interpolated_gradient`: multilinear interpolation of the
octave's `gradient_grid` at the query point, with `bounds_error=True`
modelled as `none` (the raised out-of-bounds `ValueError`); the returned
vector is interpolated componentwise. -/
def interpolatedGradient (dims : List ℕ) (grid : List ℕ → ℕ → ℚ)
    (pt : List ℚ) : Option (ℕ → ℚ) :=
  if inBounds pt then
    some (fun c => multilinear dims pt (fun r => grid r c))
  else
    none

/-- Index of the finest (highest-index) octave, `self.octave_layers[-1]`. -/
def finestOct (s : Screen) : ℕ := s.octaves - 1

/-- Spatial shape of the composite gradient grid: the finest octave's shape
(the finest octave's `points` and `gradient_grid` share it). -/
def gradientShape (s : Screen) : List ℕ := octShape s (finestOct s)

/-- The list of per-octave contributions stacked by
`PerlinNoiseScreen.gradient`: every octave except the finest contributes
`layer.interpolated_gradient(highest_octave.points)` (evaluated at the
finest octave's node point for index `idx`; the bounds check never fires
there, `Option.getD` only discharges the `Option`), and the finest octave
contributes its `gradient_grid` directly. -/
def gradientLayerList (draw : ℕ → ℕ → ℚ) (s : Screen) (idx : List ℕ) :
    List (ℕ → ℚ) :=
  ((List.range (s.octaves - 1)).map (fun o =>
      (interpolatedGradient (octShape s o) (octGrid draw s o)
          (nodePoint (gradientShape s) idx)).getD (fun _ => 0))) ++
    [fun c => octGrid draw s (finestOct s) idx c]

/-- `PerlinNoiseScreen.gradient`: elementwise sum (`np.array(...).sum(axis=0)`)
of the stacked octave contributions. -/
def gradientData (draw : ℕ → ℕ → ℚ) (s : Screen) : List ℕ → ℕ → ℚ :=
  fun idx c => ((gradientLayerList draw s idx).map (fun f => f c)).sum

/-- All sign tuples `itertools.product([1, -1], repeat=n)` of
`PerlinNoiseScreen.stencil`, with `true` standing for `1` and `false`
for `-1`, in the source's iteration order. -/
def signTuples : ℕ → List (List Bool)
  | 0 => [[]]
  | n + 1 => [true, false].flatMap (fun b => (signTuples n).map (b :: ·))

/-- The corner index `pos = tuple(1 if unit < 0 else 0 for unit in idx)`
associated to a sign tuple in `PerlinNoiseScreen.stencil`. -/
def posIdx (s : List Bool) : List ℕ :=
  s.map (fun b => if b then 0 else 1)

/-- Entry (an n-component displacement vector) of the un-normalized stencil
cube of sign tuple `s` at multi-index `j`:  `base_cube` holds
`j / (k-1)` per component, the slice `[::unit, ...]` reverses the axes with
`unit = -1` and `cube[..., i] *= unit` negates those components, giving
`j_i / (k-1)` on positive axes and `-(k-1-j_i) / (k-1)` on negative ones. -/
def cubeRaw (k : ℕ) (s : List Bool) (j : List ℕ) : List ℚ :=
  (s.zip j).map (fun p =>
    if p.1 then nodeCoord k p.2 else -(nodeCoord k (k - 1 - p.2)))

/-- Squared Euclidean length of a rational vector. -/
def magSqL (v : List ℚ) : ℚ := (v.map (fun q => q ^ 2)).sum

/-- Entry of the stencil cube after the per-corner normalization
`cube[pos] /= (np.linalg.norm(cube[pos]) + 0.05) ** 2`: only the entry at
multi-index `pos` is divided; `np.linalg.norm` forces the `ℝ` carrier. -/
noncomputable def cubeNorm (k : ℕ) (s : List Bool) (j : List ℕ) : List ℝ :=
  if j = posIdx s then
    (cubeRaw k s j).map (fun (q : ℚ) =>
      (q : ℝ) /
        ((Real.sqrt ((magSqL (cubeRaw k s (posIdx s)) : ℚ) : ℝ) + 1 / 20) ^ 2))
  else
    (cubeRaw k s j).map (fun (q : ℚ) => (q : ℝ))

/-- `PerlinNoiseScreen.stencil(k)`: the list, over all corner sign tuples,
of the corner index `pos` paired with the normalized displacement cube. -/
noncomputable def stencil (s : Screen) (k : ℕ) : List (List ℕ × (List ℕ → List ℝ)) :=
  (signTuples s.dims).map (fun sg => (posIdx sg, cubeNorm k sg))

/-- Shape of the array allocated by `PerlinNoiseScreen.render_noise`:
`np.zeros([(d - 1) * size for d in self.gradient.shape[:-1]])`. -/
def renderShape (s : Screen) (k : ℕ) : List ℕ :=
  (gradientShape s).map (fun d => (d - 1) * k)

/-- Block-local reversal `val[::-1, ::-1]` used when `render_noise` writes a
sub-block: numpy reverses the first two axes of `val` (the expression
requires `val` to have at least 2 axes and raises `IndexError` otherwise;
the model extends it totally by leaving missing axes untouched).  Because it
only permutes entries inside one `size^n` block, it affects neither the
output's shape nor its multiset of values. -/
def rev2 (k : ℕ) : List ℕ → List ℕ
  | a :: b :: rest => (k - 1 - a) :: (k - 1 - b) :: rest
  | l => l

/-- Dot product of a real vector with (the cast of) a rational vector,
modelling `np.dot(cube, g[idx])` contracting the trailing component axis. -/
def dotQR (v : List ℝ) (w : List ℚ) : ℝ :=
  ((v.zip w).map (fun p => p.1 * (p.2 : ℝ))).sum

/-- The gradient vector at a node as a component list of length `dims`. -/
def gradientVec (draw : ℕ → ℕ → ℚ) (s : Screen) (idx : List ℕ) : List ℚ :=
  (List.range s.dims).map (gradientData draw s idx)

/-- The un-normalized output of `PerlinNoiseScreen.render_noise(size)` at
output index `o`:  the loop writes, for each gradient cell `idx` (one per
adjacent pair of gradient nodes along every axis), the block
`final[size*idx : size*idx + size, ...] = val[::-1, ::-1]` where
`val = sum(np.dot(cube, g[pos]) for pos, cube in stencil(size))` and
`g = gradient[idx : idx+2, ...]`; equivalently, output index `o` belongs to
cell `o / size` at block-local position `o % size` (componentwise). -/
noncomputable def renderRaw (draw : ℕ → ℕ → ℚ) (s : Screen) (k : ℕ) :
    List ℕ → ℝ :=
  fun o =>
    let cell := o.map (fun x => x / k)
    let loc := rev2 k (o.map (fun x => x % k))
    ((stencil s k).map (fun pc =>
        dotQR (pc.2 loc) (gradientVec draw s (cell.zipWith (· + ·) pc.1)))).sum

/-- Least element of a list of reals (`ndarray.min()`; `0` for the empty
array, on which numpy raises instead). -/
def listMin : List ℝ → ℝ
  | [] => 0
  | a :: t => t.foldl min a

/-- Greatest element of a list of reals (`ndarray.max()`). -/
def listMax : List ℝ → ℝ
  | [] => 0
  | a :: t => t.foldl max a

/-- The values of the un-normalized render, enumerated over the output
array's indices. -/
noncomputable def renderValues (draw : ℕ → ℕ → ℚ) (s : Screen) (k : ℕ) :
    List ℝ :=
  (ndindexList (renderShape s k)).map (renderRaw draw s k)

/-- `PerlinNoiseScreen.render_noise(size, normalize)`: the raw field, or,
when `normalize` is set, `(final - final.min()) / (final.max() - final.min())`. -/
noncomputable def renderData (draw : ℕ → ℕ → ℚ) (s : Screen) (k : ℕ)
    (normalize : Bool) : List ℕ → ℝ :=
  if normalize then
    fun o =>
      (renderRaw draw s k o - listMin (renderValues draw s k)) /
        (listMax (renderValues draw s k) - listMin (renderValues draw s k))
  else
    renderRaw draw s k

/-- An n-dimensional real array: explicit shape plus value function. -/
structure NDR where
  shape : List ℕ
  data : List ℕ → ℝ

/-- `PerlinNoiseScreen.render_noise` as an array with its allocated shape. -/
noncomputable def renderNoise (draw : ℕ → ℕ → ℚ) (s : Screen) (k : ℕ)
    (normalize : Bool) : NDR :=
  ⟨renderShape s k, renderData draw s k normalize⟩

/-- One pass of composite Simpson pairs over consecutive interval pairs,
`a` being the left sample of the current pair. -/
def simpPairs : ℚ → List ℚ → ℚ
  | _, [] => 0
  | _, [_] => 0
  | a, b :: c :: rest => (a + 4 * b + c) / 3 + simpPairs c rest

/-- Composite Simpson quadrature over unit-spaced samples for an odd sample
count (pairs of intervals), `0` on fewer than three samples. -/
def simpsonOdd : List ℚ → ℚ
  | [] => 0
  | a :: t => simpPairs a t

/-- `scipy.integrate.simpson` over unit-spaced samples along the last axis:
odd sample counts use composite Simpson; even counts average the two
odd-prefix/odd-suffix splits, each completed by a trapezoid over the
remaining interval (scipy's historical `even='avg'` default); fewer than two
samples integrate to `0`. -/
def simpson1D (ys : List ℚ) : ℚ :=
  if ys.length % 2 = 1 then simpsonOdd ys
  else
    match ys with
    | [] => 0
    | [_] => 0
    | y0 :: y1 :: rest =>
        ((y0 + y1) / 2 + simpsonOdd (y1 :: rest) +
            (ys.getD (ys.length - 1) 0 + ys.getD (ys.length - 2) 0) / 2 +
            simpsonOdd (ys.dropLast)) / 2

/-- Pointwise update of an array-as-function at one index. -/
def setAt (g : List ℕ → ℚ) (i : List ℕ) (v : ℚ) : List ℕ → ℚ :=
  fun j => if j = i then v else g j

/-- One iteration of the `integrate_kernel` accumulation loop at `index`:
for every axis `i` whose index component is positive, add the
already-integrated value at the same index with component `i` zeroed, plus
the `simpson(...)[0]` term.  Because `scipy.integrate.simpson` integrates
along the **last** axis and the sliced window has extent 1 on every axis
except axis `i`, the Simpson term is the integral of gradient component `i`
over samples `0 .. index_i - 1` when `i` is the last axis, and the `[0]`
entry of an integral over a single sample — that is, `0` — for every other
axis. -/
def ikStep (m : ℕ) (gw : List ℕ → ℕ → ℚ) (g : List ℕ → ℚ)
    (index : List ℕ) : List ℕ → ℚ :=
  setAt g index (g index +
    ((List.range m).map (fun i =>
        if 0 < index.getD i 0 then
          g (index.set i 0) +
            (if i = m - 1 then
              simpson1D ((List.range (index.getD i 0)).map
                (fun t => gw (index.set i t) i))
            else 0)
        else 0)).sum)

/-- `integrate_kernel(grad_window, value)`: the local `[wsize]^m` grid whose
zero corner holds `value`, accumulated in row-major order. -/
def integrateKernel (w m : ℕ) (gw : List ℕ → ℕ → ℚ) (value : ℚ) :
    List ℕ → ℚ :=
  (ndindexList (List.replicate m w)).foldl (ikStep m gw)
    (setAt (fun _ => 0) (List.replicate m 0) value)

/-- Whether output position `p` lies inside the sliding window anchored at
`c` (extent `w` per axis), i.e. whether `ex_grid[c : c + w, ...] += …`
touches `p`. -/
def inWindow (w : ℕ) (c p : List ℕ) : Bool :=
  c.length = p.length &&
    (p.zip c).all (fun q => decide (q.2 ≤ q.1) && decide (q.1 < q.2 + w))

/-- The doubled (tiled) gradient buffer
`ex_grad = np.tile(gradient, [2]*m + [1])`: indices wrap modulo the base
shape. -/
def exGrad (S : List ℕ) (grad : List ℕ → ℕ → ℚ) : List ℕ → ℕ → ℚ :=
  fun idx c => grad (idx.zipWith (fun x d => x % d) S) c

/-- The sliding-window pass of `kernel_method`: starting from the doubled
zero buffer `ex_grid`, every cell `c` of the base shape accumulates
`integrate_kernel(ex_grad[c : c+w, ...], grid[c]) / w**m` into the window
anchored at `c` (`grid` is the untouched zero array allocated first, so the
seeded corner value is always `0`). -/
def windowPass (S : List ℕ) (grad : List ℕ → ℕ → ℚ) (w : ℕ) :
    List ℕ → ℚ :=
  (ndindexList S).foldl
    (fun acc c => fun p =>
      acc p +
        (if inWindow w c p then
          integrateKernel w S.length
              (fun loc cc => exGrad S grad (c.zipWith (· + ·) loc) cc) 0
              (p.zipWith (fun x y => x - y) c) /
            ((w : ℚ) ^ S.length)
        else 0))
    (fun _ => 0)

/-- `kernel_method(gradient, wsize)`: after the window pass, the base-shape
block of `ex_grid` is taken and, for every axis `i`, the tiled overflow
region `ex_grid[..., S_i : S_i + w, ...]` is folded back onto the first `w`
slots along that axis (the fold-back reads lie outside the base block, so
they are unaffected by earlier fold-back writes). -/
def kernelMethod (S : List ℕ) (grad : List ℕ → ℕ → ℚ) (w : ℕ) :
    List ℕ → ℚ :=
  (List.range S.length).foldl
    (fun g i => fun p =>
      g p +
        (if p.getD i 0 < w then
          windowPass S grad w (p.set i (p.getD i 0 + S.getD i 0))
        else 0))
    (windowPass S grad w)

/-- Least element of a list of rationals (`ndarray.min()`). -/
def listMinQ : List ℚ → ℚ
  | [] => 0
  | a :: t => t.foldl min a

/-- Greatest element of a list of rationals (`ndarray.max()`). -/
def listMaxQ : List ℚ → ℚ
  | [] => 0
  | a :: t => t.foldl max a

/-- The values of the kernel-integrated field over the gradient's spatial
shape. -/
def kernelValues (draw : ℕ → ℕ → ℚ) (s : Screen) : List ℚ :=
  (ndindexList (gradientShape s)).map
    (kernelMethod (gradientShape s) (gradientData draw s) 3)

/-- `PerlinNoiseScreen.scalar_field`:
`kernel_method(self.gradient, wsize=3)` rescaled by
`(field - field.min()) / (field.max() - field.min())`. -/
def scalarField (draw : ℕ → ℕ → ℚ) (s : Screen) : List ℕ → ℚ :=
  fun p =>
    (kernelMethod (gradientShape s) (gradientData draw s) 3 p -
        listMinQ (kernelValues draw s)) /
      (listMaxQ (kernelValues draw s) - listMinQ (kernelValues draw s))

/-- Explicit state of the shared `numpy.random.Generator`: the seed it was
created from (`random.default_rng(seed=self.seed)`) and how many variates
have been consumed. -/
structure GenState where
  seed : ℕ
  count : ℕ
deriving DecidableEq

/-- Mutable state of one `NoiseOctave`: the `@cached_property` slot for
`gradient_grid` (empty until first access) alongside the shared generator
state. -/
structure OctaveState where
  cache : Option (List ℕ → ℕ → ℚ)
  gen : GenState

/-- Build octave `o`'s gradient grid from the generator's current counter:
the row-major generation loop of `NoiseOctave.gradient_grid`, each node
consuming `dims` draws. -/
def buildGrid (draw : ℕ → ℕ → ℚ) (s : Screen) (o : ℕ) (cnt : ℕ) :
    List ℕ → ℕ → ℚ :=
  fun idx c =>
    genVecComp draw s.seed (cnt + s.dims * rowMajorRank (octShape s o) idx)
      (s.magnitudeFunc o) (s.varianceFunc o) s.dims c

/-- Reading `NoiseOctave.gradient_grid` under `@cached_property` semantics:
a hit returns the memoized grid and leaves all state alone; a miss generates
the grid (consuming `dims` draws per node from the shared generator) and
fills the slot. -/
def readGradientGrid (draw : ℕ → ℕ → ℚ) (s : Screen) (o : ℕ)
    (st : OctaveState) : (List ℕ → ℕ → ℚ) × OctaveState :=
  match st.cache with
  | some g => (g, st)
  | none =>
      let g := buildGrid draw s o st.gen.count
      (g, ⟨some g, ⟨st.gen.seed, st.gen.count + s.dims * octNodeCount s o⟩⟩)

/-- Association-list lookup for the `functools.cache` table of
`render_noise`, keyed by `(size, normalize)`. -/
def cacheLookup (l : List ((ℕ × Bool) × (List ℕ → ℝ))) (key : ℕ × Bool) :
    Option (List ℕ → ℝ) :=
  match l with
  | [] => none
  | e :: t => if e.1 = key then some e.2 else cacheLookup t key

/-- Mutable state of `PerlinNoiseScreen` relevant to render memoization:
the `@cache` table of `render_noise` plus an instrumentation counter for
how many octave gradient-grid generations have been performed. -/
structure RenderState where
  table : List ((ℕ × Bool) × (List ℕ → ℝ))
  octaveGens : ℕ

/-- Calling `render_noise(size, normalize)` under `functools.cache`
semantics: a hit returns the memoized array and performs no octave
generation; a miss computes the render (triggering one gradient-grid
generation per octave layer) and stores it under its key. -/
noncomputable def renderNoiseStateful (draw : ℕ → ℕ → ℚ) (s : Screen)
    (k : ℕ) (normalize : Bool) (st : RenderState) :
    (List ℕ → ℝ) × RenderState :=
  match cacheLookup st.table (k, normalize) with
  | some v => (v, st)
  | none =>
      let v := renderData draw s k normalize
      (v, ⟨((k, normalize), v) :: st.table, st.octaveGens + s.octaves⟩)

/-- Reversal of a stencil multi-index along every axis of a `k`-wide cube:
component `j` goes to `k - 1 - j`. -/
def revIdx (k : ℕ) (j : List ℕ) : List ℕ := j.map (fun i => k - 1 - i)

/-- Euclidean magnitude of a normalized stencil displacement entry. -/
noncomputable def entryMag (k : ℕ) (s : List Bool) (j : List ℕ) : ℝ :=
  Real.sqrt (((cubeNorm k s j).map (fun x => x ^ 2)).sum)

/-- A small concrete screen (2×2 base grid, one octave, unit density and
constant unit magnitude/variance presets) used to instantiate hypotheses on
concrete inputs. -/
def sampleScreen : Screen := ⟨[2, 2], 0, 1, 1, fun _ => 1, fun _ => 1⟩

/-- A concrete generator stream whose variates are all `1`. -/
def sampleDraw : ℕ → ℕ → ℚ := fun _ _ => 1

theorem getD_map_lt (l : List ℕ) (f : ℕ → ℕ) (d : ℕ) (h : d < l.length) :
    (l.map f).getD d 0 = f (l.getD d 0) := by
  induction l generalizing d with
  | nil => simp at h
  | cons a t ih =>
      cases d with
      | zero => rfl
      | succ n => simpa using ih n (by simpa using h)

/-- C1: for a fixed parameter tuple `(shape, seed, octaves, density,
magnitude_func, variance_func)`, two independently constructed noise fields
produce identical composite gradient grids, identical scalar fields, and
identical `render_noise(k)` outputs for every `k`: every one of these is a
pure function of the parameters and of the seed-determined generator stream
`draw`, whose variates are consumed in the fixed row-major octave order. -/
theorem noise_field_determinism (draw : ℕ → ℕ → ℚ) (s1 s2 : Screen)
    (hshape : s1.shape = s2.shape) (hseed : s1.seed = s2.seed)
    (hoct : s1.octaves = s2.octaves) (hden : s1.density = s2.density)
    (hmag : s1.magnitudeFunc = s2.magnitudeFunc)
    (hvar : s1.varianceFunc = s2.varianceFunc) :
    gradientData draw s1 = gradientData draw s2 ∧
      scalarField draw s1 = scalarField draw s2 ∧
      ∀ k normalize,
        renderNoise draw s1 k normalize = renderNoise draw s2 k normalize := by
  cases s1
  cases s2
  cases hshape
  cases hseed
  cases hoct
  cases hden
  cases hmag
  cases hvar
  exact ⟨rfl, rfl, fun _ _ => rfl⟩

theorem noise_field_determinism_witness :
    ((⟨[2, 2], 42, 2, 2, fun _ => 1, fun _ => 1⟩ : Screen).shape =
        (⟨[2, 2], 42, 2, 2, fun _ => 1, fun _ => 1⟩ : Screen).shape) ∧
      gradientData (fun _ n => (n : ℚ)) ⟨[2, 2], 42, 2, 2, fun _ => 1, fun _ => 1⟩ =
        gradientData (fun _ n => (n : ℚ)) ⟨[2, 2], 42, 2, 2, fun _ => 1, fun _ => 1⟩ :=
  ⟨rfl,
    (noise_field_determinism (fun _ n => (n : ℚ)) _ _ rfl rfl rfl rfl rfl rfl).1⟩

/-- C3: for every size, `render_noise(size)` allocates (and returns) an
array whose extent along every spatial axis `d` is
`(gradient.shape[d] - 1) * size`. -/
theorem render_shape_law (draw : ℕ → ℕ → ℚ) (s : Screen) (k : ℕ)
    (normalize : Bool) (d : ℕ) (hd : d < (gradientShape s).length) :
    (renderNoise draw s k normalize).shape.getD d 0 =
      ((gradientShape s).getD d 0 - 1) * k := by
  show (renderShape s k).getD d 0 = _
  unfold renderShape
  exact getD_map_lt _ _ _ hd

theorem render_shape_law_witness :
    1 < (gradientShape ⟨[2, 3], 0, 1, 1, fun _ => 1, fun _ => 1⟩).length ∧
      (renderNoise (fun _ _ => 1) ⟨[2, 3], 0, 1, 1, fun _ => 1, fun _ => 1⟩ 4
            true).shape.getD 1 0 =
        ((gradientShape ⟨[2, 3], 0, 1, 1, fun _ => 1, fun _ => 1⟩).getD 1 0 - 1) * 4 :=
  ⟨by decide,
    render_shape_law (fun _ _ => 1) ⟨[2, 3], 0, 1, 1, fun _ => 1, fun _ => 1⟩ 4
      true 1 (by decide)⟩

/-- C5: `interpolated_gradient` raises the out-of-bounds error (modelled as
`none`, returning no value) whenever any coordinate component of any query
point is `< 0` or `> 1`; coordinates are never clamped into range. -/
theorem interp_out_of_bounds (dims : List ℕ) (grid : List ℕ → ℕ → ℚ)
    (pt : List ℚ) (x : ℚ) (hx : x ∈ pt) (hout : x < 0 ∨ 1 < x) :
    interpolatedGradient dims grid pt = none := by
  have hb : inBounds pt = false := by
    rw [inBounds, List.all_eq_false]
    refine ⟨x, hx, ?_⟩
    rcases hout with h | h
    · simp [not_le.mpr h]
    · simp [not_le.mpr h]
  rw [interpolatedGradient, hb]
  rfl

theorem interp_out_of_bounds_witness :
    ((2 : ℚ) ∈ [(2 : ℚ)] ∧ ((2 : ℚ) < 0 ∨ (1 : ℚ) < 2)) ∧
      interpolatedGradient [2] (fun _ _ => 0) [(2 : ℚ)] = none :=
  ⟨⟨by decide, Or.inr (by norm_num)⟩,
    interp_out_of_bounds [2] (fun _ _ => 0) [(2 : ℚ)] 2 (by decide)
      (Or.inr (by norm_num))⟩

theorem listSumSq_smul (dims : ℕ) (a : ℚ) (v : ℕ → ℚ) :
    listSumSq dims (fun i => a * v i) = a ^ 2 * listSumSq dims v := by
  unfold listSumSq
  induction (List.range dims) with
  | nil => simp
  | cons b t ih => simp [ih]; ring

/-- C8: every gradient vector generated in normal-magnitude mode equals `v`
scaled by `magnitude / sum(v_i^2)`, where `v` is the vector of `dims` draws
from the generator's normal distribution with the octave's variance as
scale; consequently the squared norm of the returned vector is
`magnitude^2 / |v|^2`, so a near-zero draw inflates the result instead of
being clamped or renormalized to unit length. -/
theorem gen_vector_scaling (draw : ℕ → ℕ → ℚ) (seed cnt : ℕ)
    (magnitude variance : ℚ) (dims : ℕ)
    (hS : listSumSq dims (normalDraws draw seed cnt variance) ≠ 0) :
    (∀ c, genVecComp draw seed cnt magnitude variance dims c =
        (magnitude / listSumSq dims (normalDraws draw seed cnt variance)) *
          (variance * draw seed (cnt + c))) ∧
      listSumSq dims (genVecComp draw seed cnt magnitude variance dims) =
        magnitude ^ 2 / listSumSq dims (normalDraws draw seed cnt variance) := by
  constructor
  · intro c
    rfl
  · rw [show (genVecComp draw seed cnt magnitude variance dims) =
        (fun c => (magnitude / listSumSq dims (normalDraws draw seed cnt variance)) *
          normalDraws draw seed cnt variance c) from rfl]
    rw [listSumSq_smul]
    rw [div_pow]
    field_simp
    ring

theorem gen_vector_scaling_witness :
    listSumSq 2 (normalDraws (fun _ n => (n : ℚ) + 1) 0 0 1) ≠ 0 ∧
      listSumSq 2 (genVecComp (fun _ n => (n : ℚ) + 1) 0 0 1 1 2) =
        1 ^ 2 / listSumSq 2 (normalDraws (fun _ n => (n : ℚ) + 1) 0 0 1) :=
  ⟨by norm_num [listSumSq, normalDraws, List.range_succ],
    (gen_vector_scaling (fun _ n => (n : ℚ) + 1) 0 0 1 1 2
      (by norm_num [listSumSq, normalDraws, List.range_succ])).2⟩

/-- C9: the gradient grid of an octave is generated (and the shared PRNG
stream consumed) at most once — after the first read of `gradient_grid`,
every further read returns the same grid and leaves the cache slot and the
generator counter untouched; likewise a second `render_noise` call with the
same `(size, normalize)` key returns the cached result with no further
octave generation (the instrumentation counter of performed generations is
unchanged). -/
theorem memoization_once (draw : ℕ → ℕ → ℚ) (s : Screen) (o : ℕ) :
    (∀ st : OctaveState,
        readGradientGrid draw s o (readGradientGrid draw s o st).2 =
          readGradientGrid draw s o st) ∧
      ∀ (k : ℕ) (normalize : Bool) (st : RenderState),
        renderNoiseStateful draw s k normalize
            (renderNoiseStateful draw s k normalize st).2 =
          renderNoiseStateful draw s k normalize st := by
  constructor
  · intro st
    rcases h : st.cache with _ | g
    · simp [readGradientGrid, h]
    · simp [readGradientGrid, h]
  · intro k normalize st
    rcases h : cacheLookup st.table (k, normalize) with _ | v
    · simp [renderNoiseStateful, h, cacheLookup]
    · simp [renderNoiseStateful, h]

/-- C10: for every `k ≥ 2`, the stencil pattern of the all-positive corner
has the zero vector at its originating-corner index `(0, …, 0)` both before
and after the singularity-softening division, and that division leaves
every entry of the all-positive pattern unchanged (dividing the zero vector
by `(0 + 0.05)^2` is still zero). -/
theorem stencil_positive_corner (n k : ℕ) (_hk : 2 ≤ k) :
    cubeRaw k (List.replicate n true) (posIdx (List.replicate n true)) =
        List.replicate n 0 ∧
      cubeNorm k (List.replicate n true) (posIdx (List.replicate n true)) =
        List.replicate n 0 ∧
      ∀ j : List ℕ,
        cubeNorm k (List.replicate n true) j =
          (cubeRaw k (List.replicate n true) j).map (fun (q : ℚ) => (q : ℝ)) := by
  have hpos : posIdx (List.replicate n true) = List.replicate n 0 := by
    simp [posIdx]
  have hraw : cubeRaw k (List.replicate n true)
      (posIdx (List.replicate n true)) = List.replicate n 0 := by
    rw [hpos]
    unfold cubeRaw
    rw [List.zip_replicate, min_self, List.map_replicate]
    norm_num [nodeCoord]
  have hnorm : ∀ j : List ℕ,
      cubeNorm k (List.replicate n true) j =
        (cubeRaw k (List.replicate n true) j).map (fun (q : ℚ) => (q : ℝ)) := by
    intro j
    unfold cubeNorm
    split
    · next hj =>
        rw [hj, hraw, List.map_replicate, List.map_replicate]
        norm_num
    · rfl
  refine ⟨hraw, ?_, hnorm⟩
  rw [hnorm, hraw, List.map_replicate]
  norm_num

theorem stencil_positive_corner_witness :
    2 ≤ 3 ∧
      cubeRaw 3 (List.replicate 2 true) (posIdx (List.replicate 2 true)) =
        List.replicate 2 0 :=
  ⟨by decide, (stencil_positive_corner 2 3 (by decide)).1⟩

theorem natCast_sub_one_ne_zero (d : ℕ) (h2 : 2 ≤ d) :
    ((d - 1 : ℕ) : ℚ) ≠ 0 := by
  exact_mod_cast Nat.sub_ne_zero_of_lt (by omega)

theorem nodeCoord_mul (d j : ℕ) (h2 : 2 ≤ d) :
    nodeCoord d j * ((d - 1 : ℕ) : ℚ) = (j : ℚ) := by
  rw [nodeCoord, div_mul_cancel₀ _ (natCast_sub_one_ne_zero d h2)]

theorem cellIndex_node_lt (d j : ℕ) (h2 : 2 ≤ d) (hj : j < d - 1) :
    cellIndex d (nodeCoord d j) = j := by
  unfold cellIndex
  rw [nodeCoord_mul d j h2, Int.floor_natCast, Int.toNat_natCast]
  omega

theorem cellFrac_node_lt (d j : ℕ) (h2 : 2 ≤ d) (hj : j < d - 1) :
    cellFrac d (nodeCoord d j) = 0 := by
  unfold cellFrac
  rw [nodeCoord_mul d j h2, cellIndex_node_lt d j h2 hj]
  ring

theorem cellIndex_node_last (d : ℕ) (h2 : 2 ≤ d) :
    cellIndex d (nodeCoord d (d - 1)) = d - 2 := by
  unfold cellIndex
  rw [nodeCoord_mul d (d - 1) h2, Int.floor_natCast, Int.toNat_natCast]
  omega

theorem cellFrac_node_last (d : ℕ) (h2 : 2 ≤ d) :
    cellFrac d (nodeCoord d (d - 1)) = 1 := by
  unfold cellFrac
  rw [nodeCoord_mul d (d - 1) h2, cellIndex_node_last d h2]
  have hd1 : ((d - 1 : ℕ) : ℚ) = (d : ℚ) - 1 := by
    push_cast [Nat.cast_sub (by omega : 1 ≤ d)]
    ring
  have hd2 : ((d - 2 : ℕ) : ℚ) = (d : ℚ) - 2 := by
    push_cast [Nat.cast_sub (by omega : 2 ≤ d)]
    ring
  rw [hd1, hd2]
  ring

theorem multilinear_node (dims : List ℕ) (idx : List ℕ) (data : List ℕ → ℚ)
    (hlen : idx.length = dims.length)
    (h2 : ∀ d ∈ dims, 2 ≤ d)
    (hlt : ∀ p ∈ dims.zip idx, p.2 < p.1) :
    multilinear dims (nodePoint dims idx) data = data idx := by
  induction dims generalizing idx data with
  | nil =>
      cases idx with
      | nil => rfl
      | cons j js => simp at hlen
  | cons d ds ih =>
      cases idx with
      | nil => simp at hlen
      | cons j js =>
          have hd : 2 ≤ d := h2 d (by simp)
          have hj : j < d := hlt (d, j) (by simp [List.zip_cons_cons])
          have hpt : nodePoint (d :: ds) (j :: js) =
              nodeCoord d j :: nodePoint ds js := rfl
          rw [hpt, multilinear]
          rcases Nat.lt_or_ge j (d - 1) with hcase | hcase
          · rw [cellIndex_node_lt d j hd hcase, cellFrac_node_lt d j hd hcase]
            rw [ih js (fun r => data (j :: r)) (by simpa using hlen)
                (fun x hx => h2 x (by simp [hx]))
                (fun p hp => hlt p (by simp [List.zip_cons_cons, hp]))]
            ring
          · have hje : j = d - 1 := by omega
            rw [hje, cellIndex_node_last d hd, cellFrac_node_last d hd]
            have hstep : d - 2 + 1 = d - 1 := by omega
            rw [hstep]
            rw [ih js (fun r => data ((d - 1) :: r)) (by simpa using hlen)
                (fun x hx => h2 x (by simp [hx]))
                (fun p hp => hlt p (by simp [List.zip_cons_cons, hp]))]
            ring

theorem inBounds_nodePoint (dims idx : List ℕ)
    (hlt : ∀ p ∈ dims.zip idx, p.2 < p.1) :
    inBounds (nodePoint dims idx) = true := by
  rw [inBounds, List.all_eq_true]
  intro x hx
  rw [nodePoint] at hx
  obtain ⟨p, hp, hpx⟩ := List.mem_map.mp hx
  have hjd : p.2 < p.1 := hlt p hp
  subst hpx
  rcases Nat.lt_or_ge p.1 2 with hsmall | hbig
  · have hz : (p.1 - 1 : ℕ) = 0 := by omega
    simp [nodeCoord, hz]
  · have hnum : (0 : ℚ) ≤ (p.2 : ℚ) := by positivity
    have hden : (0 : ℚ) < ((p.1 - 1 : ℕ) : ℚ) := by
      exact_mod_cast Nat.sub_pos_of_lt (by omega)
    have h0 : 0 ≤ nodeCoord p.1 p.2 := div_nonneg hnum (le_of_lt hden)
    have h1 : nodeCoord p.1 p.2 ≤ 1 := by
      rw [nodeCoord, div_le_one hden]
      exact_mod_cast by omega
    simp [h0, h1]

/-- C6: calling `interpolated_gradient` at a grid node's exact native
coordinate (its `linspace(0, 1)` position along every axis) returns the
gradient vector stored at that node of `gradient_grid` (exactly, in the
idealized rational arithmetic; the source asserts the same up to
floating-point tolerance).  The axes need at least two grid points each, as
`RegularGridInterpolator` itself requires for linear interpolation. -/
theorem interp_identity (draw : ℕ → ℕ → ℚ) (s : Screen) (o : ℕ)
    (idx : List ℕ)
    (h2 : ∀ d ∈ octShape s o, 2 ≤ d)
    (hlen : idx.length = (octShape s o).length)
    (hlt : ∀ p ∈ (octShape s o).zip idx, p.2 < p.1) :
    interpolatedGradient (octShape s o) (octGrid draw s o)
        (nodePoint (octShape s o) idx) =
      some (fun c => octGrid draw s o idx c) := by
  rw [interpolatedGradient, if_pos (inBounds_nodePoint _ _ hlt)]
  congr 1
  funext c
  exact multilinear_node (octShape s o) idx _ hlen h2 hlt

theorem interp_identity_witness :
    ((∀ d ∈ octShape ⟨[2], 0, 1, 1, fun _ => 1, fun _ => 1⟩ 0, 2 ≤ d) ∧
        [1].length = (octShape ⟨[2], 0, 1, 1, fun _ => 1, fun _ => 1⟩ 0).length ∧
        ∀ p ∈ (octShape ⟨[2], 0, 1, 1, fun _ => 1, fun _ => 1⟩ 0).zip [1],
          p.2 < p.1) ∧
      interpolatedGradient (octShape ⟨[2], 0, 1, 1, fun _ => 1, fun _ => 1⟩ 0)
          (octGrid (fun _ _ => 1) ⟨[2], 0, 1, 1, fun _ => 1, fun _ => 1⟩ 0)
          (nodePoint (octShape ⟨[2], 0, 1, 1, fun _ => 1, fun _ => 1⟩ 0) [1]) =
        some (fun c =>
          octGrid (fun _ _ => 1) ⟨[2], 0, 1, 1, fun _ => 1, fun _ => 1⟩ 0 [1] c) :=
  ⟨⟨by decide, by decide, by decide⟩,
    interp_identity (fun _ _ => 1) ⟨[2], 0, 1, 1, fun _ => 1, fun _ => 1⟩ 0 [1]
      (by decide) (by decide) (by decide)⟩

/-- C2: the composite gradient equals, elementwise, the sum over all
non-finest octave layers of that layer's gradient grid multilinearly
interpolated at the finest octave's node coordinate point, plus the finest
octave's own gradient grid taken directly with no interpolation; every
interpolated summand is sampled at the same finest-grid coordinate point
`nodePoint (gradientShape s) idx`. -/
theorem gradient_composition (draw : ℕ → ℕ → ℚ) (s : Screen) (idx : List ℕ)
    (c : ℕ) (hlt : ∀ p ∈ (gradientShape s).zip idx, p.2 < p.1) :
    gradientData draw s idx c =
      ((List.range (s.octaves - 1)).map (fun o =>
          multilinear (octShape s o) (nodePoint (gradientShape s) idx)
            (fun r => octGrid draw s o r c))).sum +
        octGrid draw s (finestOct s) idx c := by
  unfold gradientData gradientLayerList
  rw [List.map_append, List.sum_append, List.map_map]
  simp only [Function.comp_def, List.map_cons, List.map_nil, List.sum_cons,
    List.sum_nil, add_zero]
  congr 1
  refine congrArg List.sum (List.map_congr_left ?_)
  intro o _
  rw [interpolatedGradient, if_pos (inBounds_nodePoint _ _ hlt)]
  rfl

theorem gradient_composition_witness :
    (∀ p ∈ (gradientShape ⟨[2], 0, 2, 2, fun _ => 1, fun _ => 1⟩).zip [2],
        p.2 < p.1) ∧
      gradientData (fun _ n => (n : ℚ)) ⟨[2], 0, 2, 2, fun _ => 1, fun _ => 1⟩
          [2] 0 =
        ((List.range (2 - 1)).map (fun o =>
            multilinear (octShape ⟨[2], 0, 2, 2, fun _ => 1, fun _ => 1⟩ o)
              (nodePoint (gradientShape ⟨[2], 0, 2, 2, fun _ => 1, fun _ => 1⟩)
                [2])
              (fun r =>
                octGrid (fun _ n => (n : ℚ)) ⟨[2], 0, 2, 2, fun _ => 1, fun _ => 1⟩
                  o r 0))).sum +
          octGrid (fun _ n => (n : ℚ)) ⟨[2], 0, 2, 2, fun _ => 1, fun _ => 1⟩
            (finestOct ⟨[2], 0, 2, 2, fun _ => 1, fun _ => 1⟩) [2] 0 :=
  ⟨by decide,
    gradient_composition (fun _ n => (n : ℚ)) ⟨[2], 0, 2, 2, fun _ => 1, fun _ => 1⟩
      [2] 0 (by decide)⟩

theorem foldl_min_le (t : List ℝ) (a : ℝ) :
    t.foldl min a ≤ a ∧ ∀ x ∈ t, t.foldl min a ≤ x := by
  induction t generalizing a with
  | nil => exact ⟨le_refl a, by simp⟩
  | cons b t ih =>
      refine ⟨le_trans (ih (min a b)).1 (min_le_left a b), ?_⟩
      intro x hx
      rcases List.mem_cons.mp hx with h | h
      · subst h
        exact le_trans (ih (min a x)).1 (min_le_right a x)
      · exact (ih (min a b)).2 x h

theorem le_foldl_max (t : List ℝ) (a : ℝ) :
    a ≤ t.foldl max a ∧ ∀ x ∈ t, x ≤ t.foldl max a := by
  induction t generalizing a with
  | nil => exact ⟨le_refl a, by simp⟩
  | cons b t ih =>
      refine ⟨le_trans (le_max_left a b) (ih (max a b)).1, ?_⟩
      intro x hx
      rcases List.mem_cons.mp hx with h | h
      · subst h
        exact le_trans (le_max_right a x) (ih (max a x)).1
      · exact (ih (max a b)).2 x h

theorem listMin_le_of_mem (l : List ℝ) (x : ℝ) (hx : x ∈ l) :
    listMin l ≤ x := by
  cases l with
  | nil => cases hx
  | cons a t =>
      rcases List.mem_cons.mp hx with h | h
      · subst h
        exact (foldl_min_le t x).1
      · exact (foldl_min_le t a).2 x h

theorem le_listMax_of_mem (l : List ℝ) (x : ℝ) (hx : x ∈ l) :
    x ≤ listMax l := by
  cases l with
  | nil => cases hx
  | cons a t =>
      rcases List.mem_cons.mp hx with h | h
      · subst h
        exact (le_foldl_max t x).1
      · exact (le_foldl_max t a).2 x h

theorem foldl_min_le_foldl_max (t : List ℝ) (a b : ℝ) (h : a ≤ b) :
    t.foldl min a ≤ t.foldl max b := by
  induction t generalizing a b with
  | nil => exact h
  | cons c t ih =>
      exact ih _ _ (le_trans (min_le_left a c) (le_trans h (le_max_left b c)))

theorem listMin_le_listMax (l : List ℝ) (h : l ≠ []) :
    listMin l ≤ listMax l := by
  cases l with
  | nil => exact absurd rfl h
  | cons a t => exact foldl_min_le_foldl_max t a a (le_refl a)

theorem foldl_min_map_affine (t : List ℝ) (a m c : ℝ) (hc : 0 ≤ c) :
    (t.map (fun v => (v - m) * c)).foldl min ((a - m) * c) =
      (t.foldl min a - m) * c := by
  induction t generalizing a with
  | nil => rfl
  | cons b t ih =>
      simp only [List.map_cons, List.foldl_cons]
      rw [← min_mul_of_nonneg _ _ hc, min_sub_sub_right]
      exact ih (min a b)

theorem foldl_max_map_affine (t : List ℝ) (a m c : ℝ) (hc : 0 ≤ c) :
    (t.map (fun v => (v - m) * c)).foldl max ((a - m) * c) =
      (t.foldl max a - m) * c := by
  induction t generalizing a with
  | nil => rfl
  | cons b t ih =>
      simp only [List.map_cons, List.foldl_cons]
      rw [← max_mul_of_nonneg _ _ hc, max_sub_sub_right]
      exact ih (max a b)

/-- The list-level normalization fact behind C4: rescaling a list with
non-equal extrema by `(v - min) * (max - min)⁻¹` yields a list whose minimum
is `0` and whose maximum is `1`. -/
theorem normalize_list_min_max (l : List ℝ) (hdeg : listMax l ≠ listMin l) :
    listMin (l.map (fun v => (v - listMin l) * (listMax l - listMin l)⁻¹)) = 0 ∧
      listMax (l.map (fun v => (v - listMin l) * (listMax l - listMin l)⁻¹)) = 1 := by
  have hne : l ≠ [] := by
    intro h
    subst h
    exact hdeg rfl
  have hle : listMin l ≤ listMax l := listMin_le_listMax l hne
  have hsub : listMax l - listMin l ≠ 0 := sub_ne_zero.mpr hdeg
  have hc : 0 ≤ (listMax l - listMin l)⁻¹ := inv_nonneg.mpr (sub_nonneg.mpr hle)
  obtain ⟨a, t, rfl⟩ : ∃ a t, l = a :: t := by
    cases l with
    | nil => exact absurd rfl hne
    | cons a t => exact ⟨a, t, rfl⟩
  constructor
  · show (t.map _).foldl min
        ((a - listMin (a :: t)) * (listMax (a :: t) - listMin (a :: t))⁻¹) = 0
    rw [foldl_min_map_affine t a _ _ hc,
      show t.foldl min a = listMin (a :: t) from rfl, sub_self, zero_mul]
  · show (t.map _).foldl max
        ((a - listMin (a :: t)) * (listMax (a :: t) - listMin (a :: t))⁻¹) = 1
    rw [foldl_max_map_affine t a _ _ hc,
      show t.foldl max a = listMax (a :: t) from rfl, mul_inv_cancel₀ hsub]

/-- C4: for every size, if the un-normalized rendered field is
non-degenerate (its maximum differs from its minimum), then
`render_noise(size, normalize=True)` rescales it by
`(field - min) / (max - min)`, so the returned array has minimum exactly
`0` and maximum exactly `1`. -/
theorem render_normalize_range (draw : ℕ → ℕ → ℚ) (s : Screen) (k : ℕ)
    (hdeg : listMax (renderValues draw s k) ≠ listMin (renderValues draw s k)) :
    listMin ((ndindexList (renderNoise draw s k true).shape).map
        (renderNoise draw s k true).data) = 0 ∧
      listMax ((ndindexList (renderNoise draw s k true).shape).map
        (renderNoise draw s k true).data) = 1 := by
  have hstep : (renderValues draw s k).map (fun v =>
      (v - listMin (renderValues draw s k)) *
        (listMax (renderValues draw s k) - listMin (renderValues draw s k))⁻¹) =
      (ndindexList (renderShape s k)).map ((fun v =>
        (v - listMin (renderValues draw s k)) *
          (listMax (renderValues draw s k) -
            listMin (renderValues draw s k))⁻¹) ∘ renderRaw draw s k) := by
    rw [renderValues, List.map_map]
  have hmap : (ndindexList (renderNoise draw s k true).shape).map
      (renderNoise draw s k true).data =
      (renderValues draw s k).map (fun v =>
        (v - listMin (renderValues draw s k)) *
          (listMax (renderValues draw s k) -
            listMin (renderValues draw s k))⁻¹) := by
    rw [hstep]
    show (ndindexList (renderShape s k)).map (renderData draw s k true) = _
    apply List.map_congr_left
    intro o _
    show renderData draw s k true o = _
    rw [renderData, if_pos rfl]
    show (renderRaw draw s k o - listMin (renderValues draw s k)) /
        (listMax (renderValues draw s k) - listMin (renderValues draw s k)) = _
    rw [div_eq_mul_inv]
    rfl
  rw [hmap]
  exact normalize_list_min_max _ hdeg

theorem render_values_sample :
    renderValues sampleDraw sampleScreen 2 = [2, 0, 0, -2] := by
  norm_num [renderValues, renderShape, gradientShape, finestOct, octShape,
    sampleScreen, sampleDraw, ndindexList, renderRaw, stencil, Screen.dims,
    signTuples, posIdx, cubeNorm, cubeRaw, nodeCoord, magSqL, dotQR,
    gradientVec, gradientData, gradientLayerList, octGrid, genVecComp,
    normalDraws, listSumSq, octStart, octNodeCount, rowMajorRank, rev2,
    List.range_succ, Real.sqrt_zero]

theorem render_normalize_range_witness :
    listMax (renderValues sampleDraw sampleScreen 2) ≠
        listMin (renderValues sampleDraw sampleScreen 2) ∧
      listMin ((ndindexList (renderNoise sampleDraw sampleScreen 2 true).shape).map
          (renderNoise sampleDraw sampleScreen 2 true).data) = 0 ∧
      listMax ((ndindexList (renderNoise sampleDraw sampleScreen 2 true).shape).map
          (renderNoise sampleDraw sampleScreen 2 true).data) = 1 := by
  have hdeg : listMax (renderValues sampleDraw sampleScreen 2) ≠
      listMin (renderValues sampleDraw sampleScreen 2) := by
    rw [render_values_sample]
    norm_num [listMax, listMin]
  exact ⟨hdeg, render_normalize_range sampleDraw sampleScreen 2 hdeg⟩

theorem cubeRaw_opposite (k : ℕ) (s : List Bool) (j : List ℕ)
    (hlen : j.length = s.length) (hj : ∀ i ∈ j, i < k) :
    cubeRaw k (s.map not) (revIdx k j) = (cubeRaw k s j).map Neg.neg := by
  induction s generalizing j with
  | nil =>
      cases j with
      | nil => rfl
      | cons x xs => simp at hlen
  | cons b t ih =>
      cases j with
      | nil => simp at hlen
      | cons x xs =>
          have hx : x < k := hj x (by simp)
          have hrec := ih xs (by simpa using hlen)
            (fun i hi => hj i (by simp [hi]))
          have h1 : cubeRaw k ((b :: t).map not) (revIdx k (x :: xs)) =
              (if (!b) = true then nodeCoord k (k - 1 - x)
               else -(nodeCoord k (k - 1 - (k - 1 - x)))) ::
                cubeRaw k (t.map not) (revIdx k xs) := rfl
          have h2 : (cubeRaw k (b :: t) (x :: xs)).map Neg.neg =
              (-(if b = true then nodeCoord k x
                 else -(nodeCoord k (k - 1 - x)))) ::
                (cubeRaw k t xs).map Neg.neg := rfl
          rw [h1, h2, hrec]
          congr 1
          cases b with
          | true =>
              have hxx : k - 1 - (k - 1 - x) = x := by omega
              simp [hxx]
          | false => simp

theorem magSqL_map_neg (l : List ℚ) : magSqL (l.map Neg.neg) = magSqL l := by
  unfold magSqL
  rw [List.map_map]
  refine congrArg List.sum (List.map_congr_left ?_)
  intro q _
  simp

theorem cubeRaw_two_pos (s : List Bool) :
    cubeRaw 2 s (posIdx s) = List.replicate s.length 0 := by
  induction s with
  | nil => rfl
  | cons b t ih =>
      have hcons : cubeRaw 2 (b :: t) (posIdx (b :: t)) =
          (if b = true then nodeCoord 2 0 else -(nodeCoord 2 (2 - 1 - 1))) ::
            cubeRaw 2 t (posIdx t) := by
        cases b <;> rfl
      rw [hcons, ih]
      cases b <;> simp [nodeCoord, List.replicate_succ]

theorem cubeNorm_two (s : List Bool) (j : List ℕ) :
    cubeNorm 2 s j = (cubeRaw 2 s j).map (fun (q : ℚ) => (q : ℝ)) := by
  unfold cubeNorm
  split
  · next hj =>
      rw [hj, cubeRaw_two_pos, List.map_replicate, List.map_replicate]
      norm_num
  · rfl

/-- C7 (amended): before the per-corner normalization the two opposite
corner patterns are exactly mirror-symmetric — reversing one of them along
every axis negates it entrywise, so the displacement magnitudes agree
entrywise — and for `k = 2` (where the entry selected for normalization is
the zero vector, left unchanged by the division) the same mirror symmetry
persists after normalization.  After normalization the symmetry does not
hold for every size: the accompanying counterexample exhibits `k = 3` in
dimension 1, where the entry the code normalizes is rescaled while the
mirror-image entry of the opposite pattern is not, and the magnitudes
differ. -/
theorem stencil_symmetry_amended (k : ℕ) (s : List Bool) (j : List ℕ)
    (hlen : j.length = s.length) (hj : ∀ i ∈ j, i < k) :
    magSqL (cubeRaw k (s.map not) (revIdx k j)) = magSqL (cubeRaw k s j) ∧
      (k = 2 → cubeNorm k (s.map not) (revIdx k j) =
        (cubeNorm k s j).map Neg.neg) := by
  have hraw := cubeRaw_opposite k s j hlen hj
  constructor
  · rw [hraw, magSqL_map_neg]
  · rintro rfl
    rw [cubeNorm_two, cubeNorm_two, hraw, List.map_map, List.map_map]
    refine List.map_congr_left ?_
    intro q _
    simp

theorem stencil_symmetry_amended_witness :
    (([2, 0] : List ℕ).length = ([true, false] : List Bool).length ∧
        ∀ i ∈ ([2, 0] : List ℕ), i < 3) ∧
      magSqL (cubeRaw 3 ([true, false].map not) (revIdx 3 [2, 0])) =
        magSqL (cubeRaw 3 [true, false] [2, 0]) :=
  ⟨⟨rfl, by decide⟩,
    (stencil_symmetry_amended 3 [true, false] [2, 0] rfl (by decide)).1⟩

theorem sqrt_quarter : Real.sqrt ((1 : ℝ) / 4) = 1 / 2 := by
  rw [show (1 : ℝ) / 4 = (1 / 2) ^ 2 by norm_num]
  exact Real.sqrt_sq (by norm_num)

/-- C7 (counterexample): the claimed mirror symmetry of displacement-vector
magnitudes between opposite stencil corner patterns fails after the
per-corner normalization step at size `k = 3` in dimension 1: at
multi-index `[1]` (fixed by the all-axis reversal when `k = 3`), the
pattern of the negative corner `[-1]` has its normalized entry there
(magnitude `200/121`, the raw `1/2` divided by `(1/2 + 0.05)^2`), while the
opposite pattern of `[1]` keeps the raw magnitude `1/2`. -/
theorem stencil_symmetry_counterexample :
    entryMag 3 ([true].map not) (revIdx 3 [1]) ≠ entryMag 3 [true] [1] := by
  have hrev : revIdx 3 [1] = [1] := rfl
  have hpos : posIdx [false] = [1] := rfl
  have hmag : magSqL (cubeRaw 3 [false] (posIdx [false])) = 1 / 4 := by
    norm_num [magSqL, cubeRaw, posIdx, nodeCoord]
  have hcast : ((magSqL (cubeRaw 3 [false] (posIdx [false])) : ℚ) : ℝ) =
      (1 : ℝ) / 4 := by
    rw [hmag]
    norm_num
  have hcube1 : cubeNorm 3 [false] [1] = [-(200 / 121 : ℝ)] := by
    rw [cubeNorm, if_pos hpos.symm, hcast, sqrt_quarter]
    norm_num [cubeRaw, nodeCoord]
  have h1 : entryMag 3 ([true].map not) (revIdx 3 [1]) = 200 / 121 := by
    rw [show ([true].map not) = [false] from rfl, hrev, entryMag, hcube1]
    rw [show (([-(200 / 121 : ℝ)]).map (fun x => x ^ 2)).sum =
        (200 / 121 : ℝ) ^ 2 by norm_num]
    exact Real.sqrt_sq (by norm_num)
  have h2 : entryMag 3 [true] [1] = 1 / 2 := by
    have hcube2 : cubeNorm 3 [true] [1] = [((1 / 2 : ℚ) : ℝ)] := by
      rw [cubeNorm, if_neg (by decide)]
      norm_num [cubeRaw, nodeCoord]
    rw [entryMag, hcube2]
    rw [show (([((1 / 2 : ℚ) : ℝ)]).map (fun x => x ^ 2)).sum =
        ((1 : ℝ) / 2) ^ 2 by norm_num]
    exact Real.sqrt_sq (by norm_num)
  rw [h1, h2]
  norm_num

end Perlin










